import Mathlib

/-!
Verification of the word-frequency MapReduce pipeline of
`mapreduce_url_topwords.py`.

The embedding models text as `List Char`.  Python `str.split()` (whitespace
splitting that discards empty pieces) and the regex scan
`WORD_RE.finditer` (maximal runs of word characters) are both instances of
"maximal runs of characters satisfying a predicate", embedded as `runsAux`.
Python dicts and `collections.Counter` are embedded as insertion-ordered
association lists: a new key is appended at the end, an existing key is
updated in place, which is exactly the iteration-order semantics of CPython
dictionaries that the pipeline relies on.
-/

namespace MapReduce

/-- A token is a string, modelled as a list of characters. -/
abbrev Token := List Char

/-- The ASCII whitespace characters recognised by Python `str.split()`:
space, tab, newline, carriage return, vertical tab, form feed.
(Non-ASCII Unicode whitespace is not modelled; no claim depends on it.) -/
def pyIsSpace (c : Char) : Bool :=
  c.toNat == 32 || (9 ≤ c.toNat && c.toNat ≤ 13)

/-- Maximal runs of characters satisfying `p`, with an accumulator holding
the (reversed) run in progress.  `str.split()` is runs of non-whitespace;
`WORD_RE.finditer` is runs of word characters. -/
def runsAux (p : Char → Bool) : List Char → List Char → List (List Char)
  | [], acc => if acc.isEmpty then [] else [acc.reverse]
  | c :: cs, acc =>
    if p c then runsAux p cs (c :: acc)
    else if acc.isEmpty then runsAux p cs []
    else acc.reverse :: runsAux p cs []

/-- Python `text.split()`: whitespace-separated words, empties discarded. -/
def pySplit (s : List Char) : List (List Char) :=
  runsAux (fun c => !pyIsSpace c) s []

/-- Code points matched by `WORD_RE = [a-zA-Zа-яА-ЯёЁіІїЇєЄ0-9']`:
Latin letters, ASCII digits, the apostrophe (39), Cyrillic а-я (U+0430..U+044F)
and А-Я (U+0410..U+042F), and ё Ё і І ї Ї є Є. -/
def wordNat (n : Nat) : Bool :=
  (97 ≤ n && n ≤ 122) || (65 ≤ n && n ≤ 90) || (48 ≤ n && n ≤ 57) ||
  n == 39 ||
  (0x430 ≤ n && n ≤ 0x44F) || (0x410 ≤ n && n ≤ 0x42F) ||
  n == 0x451 || n == 0x401 || n == 0x456 || n == 0x406 ||
  n == 0x457 || n == 0x407 || n == 0x454 || n == 0x404

/-- A character accepted by `WORD_RE`. -/
def isWordChar (c : Char) : Bool :=
  wordNat c.toNat

/-- Python `str.lower()` restricted to the code points of `WORD_RE`:
`A-Z` maps to `a-z` (+32), Cyrillic `А-Я` maps to `а-я` (+0x20), and the
four uppercase letters `Ё Є І Ї` map to their lowercase forms (+0x50).
All other code points are fixed. -/
def natLower (n : Nat) : Nat :=
  if 65 ≤ n ∧ n ≤ 90 then n + 32
  else if 0x410 ≤ n ∧ n ≤ 0x42F then n + 0x20
  else if n = 0x401 ∨ n = 0x404 ∨ n = 0x406 ∨ n = 0x407 then n + 0x50
  else n

/-- Lower-casing on characters, via `natLower` on the code point. -/
def pyLower (c : Char) : Char :=
  Char.ofNat (natLower c.toNat)

/-- `tokenize(text)`: every maximal run matched by `WORD_RE`, lower-cased. -/
def tokenize (text : List Char) : List Token :=
  (runsAux isWordChar text []).map (fun r => r.map pyLower)

/-- `DEFAULT_STOPWORDS` from the source, in the literal order. -/
def DEFAULT_STOPWORDS : List Token :=
  ["the".toList, "and".toList, "a".toList, "an".toList, "of".toList,
   "to".toList, "in".toList, "on".toList, "is".toList, "it".toList,
   "that".toList, "this".toList,
   "і".toList, "й".toList, "та".toList, "а".toList, "але".toList,
   "або".toList, "що".toList, "це".toList, "до".toList, "від".toList,
   "за".toList, "на".toList, "у".toList, "в".toList, "з".toList,
   "із".toList, "зі".toList, "по".toList, "як".toList, "не".toList,
   "є".toList]

/-- `map_function(text)`: whitespace-split words paired with the count 1. -/
def map_function (text : List Char) : List (Token × Nat) :=
  (pySplit text).map (fun word => (word, 1))

/-- Append value `v` to the list stored under key `k`, inserting the key at
the end if absent (Python `defaultdict(list)` append semantics). -/
def shuffleAdd : List (Token × List Nat) → Token → Nat → List (Token × List Nat)
  | [], k, v => [(k, [v])]
  | (k0, vs) :: rest, k, v =>
    if k0 = k then (k0, vs ++ [v]) :: rest else (k0, vs) :: shuffleAdd rest k v

/-- `shuffle_function(mapped_values)`: group values by key, keys ordered by
first occurrence. -/
def shuffle_function (mapped_values : List (Token × Nat)) : List (Token × List Nat) :=
  mapped_values.foldl (fun tbl kv => shuffleAdd tbl kv.1 kv.2) []

/-- `reduce_function(shuffled_values)`: sum each value list. -/
def reduce_function (shuffled_values : List (Token × List Nat)) : List (Token × Nat) :=
  shuffled_values.map (fun kv => (kv.1, kv.2.sum))

/-- `chunk_text(text, chunks)`: `[text]` when `chunks <= 1`; otherwise the
slices `text[i : min(n, i+step)]` for `i in range(0, n, step)` with
`step = max(1, n // chunks)`.  `range(0, n, step)` enumerates the
`⌈n/step⌉ = (n + step - 1) / step` indices `0, step, 2*step, ...`. -/
def chunk_text (text : List Char) (chunks : Int) : List (List Char) :=
  if chunks ≤ 1 then [text]
  else
    let n := text.length
    let step := max 1 (n / chunks.toNat)
    (List.range ((n + step - 1) / step)).map
      (fun r => (text.drop (r * step)).take step)

/-- `Counter.__iadd__` on one key: `normalized[t] += cnt` updates an existing
key in place and appends a missing key at the end. -/
def counterAdd : List (Token × Nat) → Token → Nat → List (Token × Nat)
  | [], t, c => [(t, c)]
  | (k, v) :: rest, t, c =>
    if k = t then (k, v + c) :: rest else (k, v) :: counterAdd rest t c

/-- The post-processing loop of `map_reduce_parallel`: re-tokenize every
reduced key, filter by minimum length and stopwords, and accumulate into the
normalized counter. -/
def normalizeTable (reduced : List (Token × Nat)) (min_len : Nat)
    (stop : List Token) : List (Token × Nat) :=
  reduced.foldl
    (fun tbl kv =>
      (tokenize kv.1).foldl
        (fun tbl2 t =>
          if min_len ≤ t.length ∧ stop.contains t = false then
            counterAdd tbl2 t kv.2
          else tbl2)
        tbl)
    []

/-- The MergedTable of a run: map over the chunks, concatenate (the executor
`pool.map` yields results in submission order), shuffle, reduce. -/
def merged_table (text : List Char) (workers : Int) : List (Token × Nat) :=
  reduce_function (shuffle_function (((chunk_text text workers).map map_function).flatten))

/-- The stopword set actually used: `DEFAULT_STOPWORDS if use_stopwords else set()`. -/
def stopwordsFor (use_stopwords : Bool) : List Token :=
  if use_stopwords then DEFAULT_STOPWORDS else []

/-- `map_reduce_parallel(text, workers, min_len, use_stopwords)`:
chunk, map, shuffle, reduce, then normalize/filter. -/
def map_reduce_parallel (text : List Char) (workers : Int) (min_len : Nat)
    (use_stopwords : Bool) : List (Token × Nat) :=
  normalizeTable (merged_table text workers) min_len (stopwordsFor use_stopwords)

/-- `sum(table.values())`. -/
def sumValues (tbl : List (Token × Nat)) : Nat :=
  (tbl.map (fun kv => kv.2)).sum

/-- Stable descending insertion: `x` goes in front of the first element whose
count is at most `x`'s, so earlier elements win ties. -/
def insertDesc (x : Token × Nat) : List (Token × Nat) → List (Token × Nat)
  | [] => [x]
  | y :: ys => if y.2 ≤ x.2 then x :: y :: ys else y :: insertDesc x ys

/-- Stable sort by count descending (the order produced by
`heapq.nlargest`, documented as `sorted(..., reverse=True)`). -/
def sortDesc : List (Token × Nat) → List (Token × Nat)
  | [] => []
  | x :: xs => insertDesc x (sortDesc xs)

/-- `Counter.most_common(n)`: the first `n` entries of the stable descending
sort of the insertion-ordered counter, as used by `visualize_top_words`. -/
def most_common (freq : List (Token × Nat)) (n : Nat) : List (Token × Nat) :=
  (sortDesc freq).take n

/-- The map phase under an explicit completion schedule.  `order` lists the
chunk indices in the order their futures complete; `pool.map` nevertheless
yields each result at its submission position, modelled by looking each
index up in the completed set. -/
def pool_map_collect (parts : List (List Char)) (order : List Nat) :
    List (List (Token × Nat)) :=
  (List.range parts.length).map
    (fun i =>
      (List.lookup i (order.map (fun j => (j, map_function (parts.getD j []))))).getD [])

/-- `map_reduce_parallel` with the mapper completion order made explicit. -/
def map_reduce_sched (text : List Char) (workers : Int) (min_len : Nat)
    (use_stopwords : Bool) (order : List Nat) : List (Token × Nat) :=
  normalizeTable
    (reduce_function (shuffle_function
      ((pool_map_collect (chunk_text text workers) order).flatten)))
    min_len (stopwordsFor use_stopwords)

/-- The boundary between two adjacent chunks falls on whitespace: the last
character of the left chunk or the first character of the right chunk is
whitespace (vacuously true when either side is empty). -/
def boundaryOk (a b : List Char) : Bool :=
  match a.getLast?, b.head? with
  | some x, some y => pyIsSpace x || pyIsSpace y
  | _, _ => true

/-- Every internal chunk boundary of the list falls on whitespace. -/
def alignedOk : List (List Char) → Bool
  | [] => true
  | [_] => true
  | a :: b :: rest => boundaryOk a b && alignedOk (b :: rest)

/-- The single-chunk sequential pipeline: map the whole text at once, then
shuffle, reduce and normalize. -/
def map_reduce_seq (text : List Char) (min_len : Nat) (use_stopwords : Bool) :
    List (Token × Nat) :=
  normalizeTable (reduce_function (shuffle_function (map_function text)))
    min_len (stopwordsFor use_stopwords)

/-- The error raised inside `map_reduce_parallel`:
`concurrent.futures.ThreadPoolExecutor(max_workers=workers)` raises
`ValueError("max_workers must be greater than 0")` when `workers <= 0`. -/
inductive PipelineError where
  | invalidWorkerCount
deriving DecidableEq

/-- `map_reduce_parallel` with the executor's `max_workers` validation made
explicit: entering `cf.ThreadPoolExecutor(max_workers=workers)` fails with
`ValueError` for `workers <= 0`, before any mapper runs; for positive
`workers` the run returns the normalized table. -/
def map_reduce_parallel_checked (text : List Char) (workers : Int)
    (min_len : Nat) (use_stopwords : Bool) :
    Except PipelineError (List (Token × Nat)) :=
  if workers ≤ 0 then Except.error PipelineError.invalidWorkerCount
  else Except.ok (map_reduce_parallel text workers min_len use_stopwords)

/-! ### Chunking lemmas -/

lemma ceil_div_succ (n step : Nat) (hstep : 0 < step) (hn : 0 < n) :
    (n + step - 1) / step = ((n - step) + step - 1) / step + 1 := by
  rcases le_or_lt n step with h | h
  · have h1 : n + step - 1 = (n - 1) + step := by omega
    have h2 : (n - step) + step - 1 = step - 1 := by omega
    rw [h1, Nat.add_div_right _ hstep, h2,
        Nat.div_eq_of_lt (by omega), Nat.div_eq_of_lt (by omega)]
  · have h1 : n + step - 1 = (n - 1) + step := by omega
    have h2 : (n - step) + step - 1 = n - 1 := by omega
    rw [h1, Nat.add_div_right _ hstep, h2]

lemma flatten_slices (step : Nat) (hstep : 0 < step) :
    ∀ (fuel : Nat) (s : List Char), s.length ≤ fuel →
      ((List.range ((s.length + step - 1) / step)).map
        (fun r => (s.drop (r * step)).take step)).flatten = s := by
  intro fuel
  induction fuel with
  | zero =>
    intro s hs
    have : s = [] := List.eq_nil_of_length_eq_zero (by omega)
    subst this
    have h0 : ((0 : Nat) + step - 1) / step = 0 := Nat.div_eq_of_lt (by omega)
    simp [h0]
  | succ fuel ih =>
    intro s hs
    cases s with
    | nil =>
      have h0 : ((0 : Nat) + step - 1) / step = 0 := Nat.div_eq_of_lt (by omega)
      simp [h0]
    | cons c cs =>
      have hlen : 0 < (c :: cs).length := by simp
      rw [ceil_div_succ _ _ hstep hlen]
      have hdrop : ((c :: cs).drop step).length = (c :: cs).length - step :=
        List.length_drop ..
      rw [List.range_succ_eq_map, List.map_cons, List.map_map, List.flatten_cons]
      have hfun : ∀ r : Nat,
          ((fun r => ((c :: cs).drop (r * step)).take step) ∘ Nat.succ) r
            = (((c :: cs).drop step).drop (r * step)).take step := by
        intro r
        simp only [Function.comp_apply]
        rw [Nat.succ_mul, Nat.add_comm, List.drop_drop]
      have htail :
          ((List.range (((c :: cs).length - step + step - 1) / step)).map
            ((fun r => ((c :: cs).drop (r * step)).take step) ∘ Nat.succ)).flatten
            = (c :: cs).drop step := by
        rw [List.map_congr_left (fun r _ => hfun r), ← hdrop]
        exact ih _ (by rw [hdrop]; simp only [List.length_cons] at hs ⊢; omega)
      rw [htail]
      simp [List.take_append_drop]

lemma chunk_text_flatten_aux (text : List Char) (k : Int) :
    (chunk_text text k).flatten = text := by
  unfold chunk_text
  split
  · simp
  · exact flatten_slices _ (by omega) text.length text (le_refl _)

lemma chunk_text_ne_nil (text : List Char) (k : Int) (hk : ¬ (k ≤ 1)) :
    ∀ p ∈ chunk_text text k, p ≠ [] := by
  unfold chunk_text
  rw [if_neg hk]
  intro p hp
  simp only [List.mem_map, List.mem_range] at hp
  obtain ⟨r, hr, rfl⟩ := hp
  set step := max 1 (text.length / k.toNat) with hstepdef
  have hstep : 0 < step := by omega
  have hmul : r * step < text.length := by
    have h1 : r + 1 ≤ (text.length + step - 1) / step := hr
    have h2 : (r + 1) * step ≤ text.length + step - 1 :=
      (Nat.le_div_iff_mul_le hstep).mp h1
    have h3 : (r + 1) * step = r * step + step := by ring
    omega
  have hpos : 0 < ((text.drop (r * step)).take step).length := by
    simp only [List.length_take, List.length_drop]
    omega
  exact List.ne_nil_of_length_pos hpos

lemma chunk_text_length (text : List Char) (k : Int) (hk : ¬ (k ≤ 1)) :
    (chunk_text text k).length
      = (text.length + max 1 (text.length / k.toNat) - 1)
          / max 1 (text.length / k.toNat) := by
  unfold chunk_text
  rw [if_neg hk]
  simp

lemma chunk_count_dvd (n k0 : Nat) (hk : 2 ≤ k0) (hn : 0 < n) (hdvd : k0 ∣ n) :
    (n + max 1 (n / k0) - 1) / max 1 (n / k0) = k0 := by
  obtain ⟨s, rfl⟩ := hdvd
  rcases Nat.eq_zero_or_pos s with rfl | hs
  · simp at hn
  · have hdiv : k0 * s / k0 = s := Nat.mul_div_cancel_left s (by omega)
    have hmax : max 1 s = s := by omega
    rw [hdiv, hmax]
    have h1 : k0 * s + s - 1 = s * k0 + (s - 1) := by
      have := Nat.mul_comm k0 s
      omega
    rw [h1, Nat.mul_add_div hs, Nat.div_eq_of_lt (by omega)]
    omega

lemma chunk_count_small (n k0 : Nat) (hn : 0 < n) (hlt : n < k0) :
    (n + max 1 (n / k0) - 1) / max 1 (n / k0) = n := by
  have h0 : n / k0 = 0 := Nat.div_eq_of_lt hlt
  rw [h0]
  simp

/-! ### Mass accounting for the normalizer -/

lemma sumValues_counterAdd (tbl : List (Token × Nat)) (t : Token) (c : Nat) :
    sumValues (counterAdd tbl t c) = sumValues tbl + c := by
  induction tbl with
  | nil => simp [counterAdd, sumValues]
  | cons kv rest ih =>
    obtain ⟨k, v⟩ := kv
    by_cases h : k = t
    · simp [counterAdd, h, sumValues]
      omega
    · simp [counterAdd, h, sumValues] at ih ⊢
      omega

lemma sumValues_tokFold (min_len : Nat) (stop : List Token) (c : Nat) :
    ∀ (toks : List Token) (tbl : List (Token × Nat)),
      sumValues (toks.foldl
          (fun tbl2 t =>
            if min_len ≤ t.length ∧ stop.contains t = false then
              counterAdd tbl2 t c
            else tbl2)
          tbl)
        ≤ sumValues tbl + c * toks.length := by
  intro toks
  induction toks with
  | nil => intro tbl; simp
  | cons t ts ih =>
    intro tbl
    simp only [List.foldl_cons]
    have hstep :
        sumValues (if min_len ≤ t.length ∧ stop.contains t = false then
            counterAdd tbl t c else tbl)
          ≤ sumValues tbl + c := by
      split
      · rw [sumValues_counterAdd]
      · omega
    have := ih (if min_len ≤ t.length ∧ stop.contains t = false then
        counterAdd tbl t c else tbl)
    have hmul : c * (ts.length + 1) = c * ts.length + c := by ring
    simp only [List.length_cons]
    omega

lemma sumValues_normalize_fold (min_len : Nat) (stop : List Token) :
    ∀ (reduced : List (Token × Nat)) (tbl : List (Token × Nat)),
      sumValues (reduced.foldl
          (fun tbl kv =>
            (tokenize kv.1).foldl
              (fun tbl2 t =>
                if min_len ≤ t.length ∧ stop.contains t = false then
                  counterAdd tbl2 t kv.2
                else tbl2)
              tbl)
          tbl)
        ≤ sumValues tbl
            + ((reduced.map (fun kv => kv.2 * (tokenize kv.1).length)).sum) := by
  intro reduced
  induction reduced with
  | nil => intro tbl; simp
  | cons kv rest ih =>
    intro tbl
    simp only [List.foldl_cons, List.map_cons, List.sum_cons]
    have h1 := sumValues_tokFold min_len stop kv.2 (tokenize kv.1) tbl
    have h2 := ih ((tokenize kv.1).foldl
        (fun tbl2 t =>
          if min_len ≤ t.length ∧ stop.contains t = false then
            counterAdd tbl2 t kv.2
          else tbl2)
        tbl)
    omega

/-! ### Claim theorems on chunking, mass, empty input and the worked example -/

/-- Claim C4: for every text and every desired chunk count, the chunks returned by
`chunk_text` are contiguous non-overlapping slices whose in-order
concatenation reconstructs the input text exactly. -/
theorem c4_chunks_reconstruct (text : List Char) (k : Int) :
    (chunk_text text k).flatten = text :=
  chunk_text_flatten_aux text k

/-- Claim C2 counterexample: on a 10-character text with desired chunk count 3 the
text is not shorter than 3 characters, yet `chunk_text` returns 4 chunks,
not 3 — the remainder becomes an extra short chunk instead of being absorbed
by the last one. -/
theorem c2_counterexample :
    3 ≤ (List.replicate 10 (Char.ofNat 97)).length
    ∧ (chunk_text (List.replicate 10 (Char.ofNat 97)) 3).length ≠ 3 := by
  decide

/-- Claim C2 amended: for `k ≥ 2` the chunker slices contiguously with stride
`step = max 1 (n / k)` and returns `⌈n / step⌉` chunks.  This equals `k`
when `k` divides `n` (and `n > 0`), and equals `n` (fewer than `k`) when the
text is shorter than `k`; otherwise it may exceed `k`, the remainder forming
extra short chunks rather than being absorbed into the last one. -/
theorem c2_chunk_count (text : List Char) (k : Int) (hk : 2 ≤ k) :
    (chunk_text text k).length
        = (text.length + max 1 (text.length / k.toNat) - 1)
            / max 1 (text.length / k.toNat)
    ∧ (0 < text.length → k.toNat ∣ text.length →
        (chunk_text text k).length = k.toNat)
    ∧ (0 < text.length → text.length < k.toNat →
        (chunk_text text k).length = text.length) := by
  have hk1 : ¬ (k ≤ 1) := by omega
  have hlen := chunk_text_length text k hk1
  refine ⟨hlen, fun hn hdvd => ?_, fun hn hlt => ?_⟩
  · rw [hlen]
    exact chunk_count_dvd _ _ (by omega) hn hdvd
  · rw [hlen]
    exact chunk_count_small _ _ hn hlt

theorem c2_chunk_count_witness :
    (2 : Int) ≤ 3 ∧ (chunk_text ("abcdef".toList) 3).length = (3 : Int).toNat :=
  ⟨by decide, (c2_chunk_count ("abcdef".toList) 3 (by decide)).2.1 (by decide) (by decide)⟩

lemma chunk_text_le_one (text : List Char) (c : Int) (hc : c ≤ 1) :
    chunk_text text c = [text] := by
  unfold chunk_text
  rw [if_pos hc]

lemma map_reduce_parallel_le_one (text : List Char) (c : Int) (min_len : Nat)
    (u : Bool) (hc : c ≤ 1) :
    map_reduce_parallel text c min_len u = map_reduce_seq text min_len u := by
  unfold map_reduce_parallel merged_table map_reduce_seq
  rw [chunk_text_le_one text c hc]
  simp

/-- Claim C10 counterexample: with `workers = 0` (which is `≤ 1`) the run
does not degenerate to the single-chunk sequential pipeline: entering
`ThreadPoolExecutor(max_workers=0)` raises `ValueError`, so the pipeline
fails with no output. -/
theorem c10_counterexample :
    ((0 : Int) ≤ 1)
    ∧ map_reduce_parallel_checked ("a b".toList) 0 1 true
        = Except.error PipelineError.invalidWorkerCount := by
  exact ⟨by decide, rfl⟩

/-- Claim C10 amended: `chunk_text` with desired chunk count at most 1
(including 0 and negative counts) returns the single-element list holding
the whole text; `map_reduce_parallel` with `workers = 1` degenerates to the
single-chunk sequential pipeline; but for `workers ≤ 0` the run fails with
`ValueError` from the executor's `max_workers` validation rather than
degenerating. -/
theorem c10_degenerate_chunking (text : List Char) (c : Int) (min_len : Nat)
    (u : Bool) (hc : c ≤ 1) :
    chunk_text text c = [text]
    ∧ (c = 1 →
        map_reduce_parallel_checked text c min_len u
          = Except.ok (map_reduce_seq text min_len u))
    ∧ (c ≤ 0 →
        map_reduce_parallel_checked text c min_len u
          = Except.error PipelineError.invalidWorkerCount) := by
  refine ⟨chunk_text_le_one text c hc, fun hc1 => ?_, fun hc0 => ?_⟩
  · subst hc1
    unfold map_reduce_parallel_checked
    rw [if_neg (by omega), map_reduce_parallel_le_one text 1 min_len u (by omega)]
  · unfold map_reduce_parallel_checked
    rw [if_pos hc0]

theorem c10_degenerate_chunking_witness :
    ((1 : Int) ≤ 1)
    ∧ chunk_text ("a b".toList) 1 = ["a b".toList]
    ∧ map_reduce_parallel_checked ("a b".toList) 1 1 true
        = Except.ok (map_reduce_seq ("a b".toList) 1 true) :=
  ⟨by decide,
   (c10_degenerate_chunking ("a b".toList) 1 1 true (by decide)).1,
   (c10_degenerate_chunking ("a b".toList) 1 1 true (by decide)).2.1 rfl⟩

/-- Claim C5: the empty input text produces an empty NormalizedTable and an empty
TopNResult under every configuration (the pipeline is total, so no error is
possible). -/
theorem c5_empty_input (workers : Int) (min_len : Nat) (u : Bool) (n : Nat) :
    map_reduce_parallel [] workers min_len u = []
    ∧ most_common (map_reduce_parallel [] workers min_len u) n = [] := by
  have hmerged : merged_table ([] : List Char) workers = [] := by
    unfold merged_table chunk_text
    split
    · rfl
    · simp [shuffle_function, reduce_function]
  have hrun : map_reduce_parallel [] workers min_len u = [] := by
    unfold map_reduce_parallel
    rw [hmerged]
    rfl
  exact ⟨hrun, by rw [hrun]; simp [most_common, sortDesc]⟩

set_option maxRecDepth 10000 in
/-- Claim C6: on the input `"the cat sat on the mat the cat ran"` with
`use_stopwords = False`, `min_len = 1` and `workers = 1`,
`map_reduce_parallel` returns the table `{the: 3, cat: 2, sat: 1, on: 1,
mat: 1, ran: 1}` (in first-insertion order) and the top-2 selection returns
`[("the", 3), ("cat", 2)]`. -/
theorem c6_example_run :
    map_reduce_parallel ("the cat sat on the mat the cat ran".toList) 1 1 false
        = [("the".toList, 3), ("cat".toList, 2), ("sat".toList, 1),
           ("on".toList, 1), ("mat".toList, 1), ("ran".toList, 1)]
    ∧ most_common
        (map_reduce_parallel ("the cat sat on the mat the cat ran".toList) 1 1 false) 2
        = [("the".toList, 3), ("cat".toList, 2)] := by
  decide

set_option maxRecDepth 10000 in
/-- Claim C1 counterexample: on the input `"a,b"` (one worker, `min_len = 1`, no
stopwords) the merged table is `{"a,b": 1}` with total mass 1, but
normalization re-tokenizes the key into the two clean tokens `a` and `b`,
each inheriting the full count, so the normalized mass is 2 — the claimed
invariant `sum(NormalizedTable) ≤ sum(MergedTable)` fails. -/
theorem c1_counterexample :
    ¬ (sumValues (map_reduce_parallel ("a,b".toList) 1 1 false)
        ≤ sumValues (merged_table ("a,b".toList) 1)) := by
  decide

/-- Claim C1 amended: normalization mass is bounded by the merged mass weighted by
the number of clean tokens extracted from each raw key: filtering only
removes mass, but re-tokenizing can split one raw token into several clean
tokens, each of which receives the full raw count. -/
theorem c1_normalized_mass_bound (text : List Char) (workers : Int)
    (min_len : Nat) (u : Bool) :
    sumValues (map_reduce_parallel text workers min_len u)
      ≤ ((merged_table text workers).map
          (fun kv => kv.2 * (tokenize kv.1).length)).sum := by
  unfold map_reduce_parallel normalizeTable
  have h := sumValues_normalize_fold min_len (stopwordsFor u)
      (merged_table text workers) []
  simpa [sumValues] using h

/-! ### Top-N selector: sortedness and stability -/

lemma mem_insertDesc (x z : Token × Nat) (l : List (Token × Nat)) :
    z ∈ insertDesc x l ↔ z = x ∨ z ∈ l := by
  induction l with
  | nil => simp [insertDesc]
  | cons y ys ih =>
    by_cases h : y.2 ≤ x.2
    · simp [insertDesc, h]
    · simp [insertDesc, h, ih]
      tauto

lemma pairwise_insertDesc (x : Token × Nat) (l : List (Token × Nat))
    (hl : List.Pairwise (fun a b : Token × Nat => b.2 ≤ a.2) l) :
    List.Pairwise (fun a b : Token × Nat => b.2 ≤ a.2) (insertDesc x l) := by
  induction l with
  | nil => simp [insertDesc]
  | cons y ys ih =>
    rcases List.pairwise_cons.mp hl with ⟨hy, hys⟩
    by_cases h : y.2 ≤ x.2
    · simp only [insertDesc, if_pos h]
      refine List.pairwise_cons.mpr ⟨?_, hl⟩
      intro z hz
      rcases List.mem_cons.mp hz with rfl | hz2
      · exact h
      · exact le_trans (hy z hz2) h
    · simp only [insertDesc, if_neg h]
      refine List.pairwise_cons.mpr ⟨?_, ih hys⟩
      intro z hz
      rcases (mem_insertDesc x z ys).mp hz with rfl | hz2
      · omega
      · exact hy z hz2

lemma sortDesc_pairwise (l : List (Token × Nat)) :
    List.Pairwise (fun a b : Token × Nat => b.2 ≤ a.2) (sortDesc l) := by
  induction l with
  | nil => simp [sortDesc]
  | cons x xs ih => exact pairwise_insertDesc x (sortDesc xs) ih

lemma filter_insertDesc_ne (x : Token × Nat) (l : List (Token × Nat)) (c : Nat)
    (hx : x.2 ≠ c) :
    (insertDesc x l).filter (fun p => p.2 == c)
      = l.filter (fun p => p.2 == c) := by
  have hx2 : (x.2 == c) = false := by simp [hx]
  induction l with
  | nil => simp [insertDesc, List.filter_cons, hx2]
  | cons y ys ih =>
    by_cases h : y.2 ≤ x.2
    · simp only [insertDesc, if_pos h]
      simp [List.filter_cons, hx2]
    · simp only [insertDesc, if_neg h]
      simp [List.filter_cons, ih]

lemma filter_insertDesc_eq (x : Token × Nat) (l : List (Token × Nat))
    (hl : List.Pairwise (fun a b : Token × Nat => b.2 ≤ a.2) l) :
    (insertDesc x l).filter (fun p => p.2 == x.2)
      = x :: l.filter (fun p => p.2 == x.2) := by
  induction l with
  | nil => simp [insertDesc, List.filter_cons]
  | cons y ys ih =>
    rcases List.pairwise_cons.mp hl with ⟨hy, hys⟩
    by_cases h : y.2 ≤ x.2
    · simp only [insertDesc, if_pos h]
      simp [List.filter_cons]
    · simp only [insertDesc, if_neg h]
      have hyne : (y.2 == x.2) = false := by simp; omega
      simp [List.filter_cons, hyne, ih hys]

lemma sortDesc_filter (l : List (Token × Nat)) (c : Nat) :
    (sortDesc l).filter (fun p => p.2 == c) = l.filter (fun p => p.2 == c) := by
  induction l with
  | nil => simp [sortDesc]
  | cons x xs ih =>
    show (insertDesc x (sortDesc xs)).filter (fun p => p.2 == c)
        = (x :: xs).filter (fun p => p.2 == c)
    by_cases hx : x.2 = c
    · subst hx
      rw [filter_insertDesc_eq x (sortDesc xs) (sortDesc_pairwise xs)]
      simp [List.filter_cons, ih]
    · rw [filter_insertDesc_ne x (sortDesc xs) c hx]
      have hx2 : (x.2 == c) = false := by simp [hx]
      simp [List.filter_cons, hx2, ih]

set_option maxRecDepth 10000 in
/-- Claim C7: `most_common` returns at most `n` entries, sorted by count
descending; ties between equal counts keep the order of the input table
(first-insertion order): for every count `c`, the entries of count `c`
appear in `sortDesc freq` exactly as they appear in `freq`.  On the worked
example with stopwords enabled the top-2 result is
`[("cat", 2), ("sat", 1)]`. -/
theorem c7_most_common_spec (freq : List (Token × Nat)) (n : Nat) :
    (most_common freq n).length ≤ n
    ∧ List.Pairwise (fun a b : Token × Nat => b.2 ≤ a.2) (most_common freq n)
    ∧ (∀ c : Nat,
        (sortDesc freq).filter (fun p => p.2 == c)
          = freq.filter (fun p => p.2 == c))
    ∧ most_common
        (map_reduce_parallel ("the cat sat on the mat the cat ran".toList) 1 1 true) 2
        = [("cat".toList, 2), ("sat".toList, 1)] := by
  refine ⟨?_, ?_, fun c => sortDesc_filter freq c, by decide⟩
  · simp [most_common]
  · exact (sortDesc_pairwise freq).sublist (List.take_sublist n (sortDesc freq))

/-! ### Normalized-table entry invariant -/

lemma toNat_ofNat_valid (n : Nat) (h : n.isValidChar) :
    (Char.ofNat n).toNat = n := by
  rw [Char.ofNat, dif_pos h]
  rfl

lemma natLower_valid (n : Nat) (h : n.isValidChar) :
    (natLower n).isValidChar := by
  unfold natLower
  unfold Nat.isValidChar at *
  split_ifs <;> omega

lemma toNat_pyLower (c : Char) : (pyLower c).toNat = natLower c.toNat :=
  toNat_ofNat_valid _ (natLower_valid _ c.valid)

lemma wordNat_natLower (n : Nat) (h : wordNat n = true) :
    wordNat (natLower n) = true ∧ natLower (natLower n) = natLower n := by
  simp only [wordNat, Bool.or_eq_true, Bool.and_eq_true, decide_eq_true_eq,
    beq_iff_eq] at h
  simp only [wordNat, natLower, Bool.or_eq_true, Bool.and_eq_true,
    decide_eq_true_eq, beq_iff_eq]
  refine ⟨?_, ?_⟩ <;> split_ifs <;> omega

lemma pyLower_word (c : Char) (h : isWordChar c = true) :
    isWordChar (pyLower c) = true ∧ pyLower (pyLower c) = pyLower c := by
  have hw := wordNat_natLower c.toNat h
  constructor
  · show wordNat (pyLower c).toNat = true
    rw [toNat_pyLower]
    exact hw.1
  · show Char.ofNat (natLower (pyLower c).toNat) = pyLower c
    rw [toNat_pyLower, hw.2]
    rfl

lemma runsAux_mem_chars (p : Char → Bool) :
    ∀ (s acc : List Char), (∀ c ∈ acc, p c = true) →
      ∀ r ∈ runsAux p s acc, ∀ c ∈ r, p c = true := by
  intro s
  induction s with
  | nil =>
    intro acc hacc r hr
    simp only [runsAux] at hr
    split at hr
    · simp at hr
    · simp only [List.mem_singleton] at hr
      subst hr
      intro c hc
      exact hacc c (List.mem_reverse.mp hc)
  | cons x xs ih =>
    intro acc hacc r hr
    simp only [runsAux] at hr
    by_cases hx : p x
    · rw [if_pos hx] at hr
      refine ih (x :: acc) ?_ r hr
      intro c hc
      rcases List.mem_cons.mp hc with rfl | hc2
      · exact hx
      · exact hacc c hc2
    · rw [if_neg hx] at hr
      split at hr
      · exact ih [] (by simp) r hr
      · rcases List.mem_cons.mp hr with rfl | hr2
        · intro c hc
          exact hacc c (List.mem_reverse.mp hc)
        · exact ih [] (by simp) r hr2

lemma tokenize_chars (w : List Char) :
    ∀ t ∈ tokenize w, ∀ c ∈ t, isWordChar c = true ∧ pyLower c = c := by
  intro t ht c hc
  simp only [tokenize, List.mem_map] at ht
  obtain ⟨r, hr, rfl⟩ := ht
  simp only [List.mem_map] at hc
  obtain ⟨c0, hc0, rfl⟩ := hc
  have hword := runsAux_mem_chars isWordChar w [] (by simp) r hr c0 hc0
  exact ⟨(pyLower_word c0 hword).1, (pyLower_word c0 hword).2⟩

/-- The invariant satisfied by every entry of the normalized table. -/
def goodEntry (min_len : Nat) (stop : List Token) (e : Token × Nat) : Prop :=
  (∀ c ∈ e.1, isWordChar c = true ∧ pyLower c = c)
  ∧ min_len ≤ e.1.length
  ∧ stop.contains e.1 = false
  ∧ 1 ≤ e.2

lemma counterAdd_good (min_len : Nat) (stop : List Token) :
    ∀ (tbl : List (Token × Nat)) (t : Token) (c : Nat),
      (∀ e ∈ tbl, goodEntry min_len stop e) →
      (∀ ch ∈ t, isWordChar ch = true ∧ pyLower ch = ch) →
      min_len ≤ t.length → stop.contains t = false → 1 ≤ c →
      ∀ e ∈ counterAdd tbl t c, goodEntry min_len stop e := by
  intro tbl
  induction tbl with
  | nil =>
    intro t c _ hch hlen hstop hc e he
    simp only [counterAdd, List.mem_singleton] at he
    subst he
    exact ⟨hch, hlen, hstop, hc⟩
  | cons kv rest ih =>
    intro t c htbl hch hlen hstop hc e he
    obtain ⟨k, v⟩ := kv
    simp only [counterAdd] at he
    by_cases hk : k = t
    · rw [if_pos hk] at he
      rcases List.mem_cons.mp he with rfl | he2
      · have hg := htbl (k, v) (List.mem_cons_self ..)
        exact ⟨hg.1, hg.2.1, hg.2.2.1, by omega⟩
      · exact htbl e (List.mem_cons_of_mem _ he2)
    · rw [if_neg hk] at he
      rcases List.mem_cons.mp he with rfl | he2
      · exact htbl (k, v) (List.mem_cons_self ..)
      · exact ih t c (fun e2 he2' => htbl e2 (List.mem_cons_of_mem _ he2'))
          hch hlen hstop hc e he2

lemma tokFold_good (min_len : Nat) (stop : List Token) (cnt : Nat)
    (hcnt : 1 ≤ cnt) :
    ∀ (toks : List Token) (tbl : List (Token × Nat)),
      (∀ e ∈ tbl, goodEntry min_len stop e) →
      (∀ t ∈ toks, ∀ ch ∈ t, isWordChar ch = true ∧ pyLower ch = ch) →
      ∀ e ∈ toks.foldl
          (fun tbl2 t =>
            if min_len ≤ t.length ∧ stop.contains t = false then
              counterAdd tbl2 t cnt
            else tbl2)
          tbl,
        goodEntry min_len stop e := by
  intro toks
  induction toks with
  | nil => intro tbl htbl _ e he; exact htbl e he
  | cons t ts ih =>
    intro tbl htbl htoks e he
    simp only [List.foldl_cons] at he
    refine ih _ ?_ (fun t2 ht2 => htoks t2 (List.mem_cons_of_mem _ ht2)) e he
    split
    · next hcond =>
      exact counterAdd_good min_len stop tbl t cnt htbl
        (htoks t (List.mem_cons_self ..)) hcond.1 hcond.2 hcnt
    · exact htbl

lemma normalize_fold_good (min_len : Nat) (stop : List Token) :
    ∀ (reduced : List (Token × Nat)) (tbl : List (Token × Nat)),
      (∀ e ∈ tbl, goodEntry min_len stop e) →
      (∀ kv ∈ reduced, 1 ≤ kv.2) →
      ∀ e ∈ reduced.foldl
          (fun tbl kv =>
            (tokenize kv.1).foldl
              (fun tbl2 t =>
                if min_len ≤ t.length ∧ stop.contains t = false then
                  counterAdd tbl2 t kv.2
                else tbl2)
              tbl)
          tbl,
        goodEntry min_len stop e := by
  intro reduced
  induction reduced with
  | nil => intro tbl htbl _ e he; exact htbl e he
  | cons kv rest ih =>
    intro tbl htbl hred e he
    simp only [List.foldl_cons] at he
    refine ih _ ?_ (fun kv2 hkv2 => hred kv2 (List.mem_cons_of_mem _ hkv2)) e he
    exact tokFold_good min_len stop kv.2 (hred kv (List.mem_cons_self ..))
      (tokenize kv.1) tbl htbl (tokenize_chars kv.1)

lemma shuffleAdd_sum_pos :
    ∀ (tbl : List (Token × List Nat)) (k : Token) (v : Nat),
      (∀ e ∈ tbl, 0 < e.2.sum) → 0 < v →
      ∀ e ∈ shuffleAdd tbl k v, 0 < e.2.sum := by
  intro tbl
  induction tbl with
  | nil =>
    intro k v _ hv e he
    simp only [shuffleAdd, List.mem_singleton] at he
    subst he
    simpa using hv
  | cons kv rest ih =>
    intro k v htbl hv e he
    obtain ⟨k0, vs⟩ := kv
    simp only [shuffleAdd] at he
    by_cases hk : k0 = k
    · rw [if_pos hk] at he
      rcases List.mem_cons.mp he with rfl | he2
      · have := htbl (k0, vs) (List.mem_cons_self ..)
        simp only [List.sum_append, List.sum_cons, List.sum_nil] at *
        omega
      · exact htbl e (List.mem_cons_of_mem _ he2)
    · rw [if_neg hk] at he
      rcases List.mem_cons.mp he with rfl | he2
      · exact htbl (k0, vs) (List.mem_cons_self ..)
      · exact ih k v (fun e2 he2' => htbl e2 (List.mem_cons_of_mem _ he2')) hv e he2

lemma shuffle_sum_pos :
    ∀ (pairs : List (Token × Nat)) (tbl : List (Token × List Nat)),
      (∀ pr ∈ pairs, 0 < pr.2) →
      (∀ e ∈ tbl, 0 < e.2.sum) →
      ∀ e ∈ pairs.foldl (fun tbl kv => shuffleAdd tbl kv.1 kv.2) tbl,
        0 < e.2.sum := by
  intro pairs
  induction pairs with
  | nil => intro tbl _ htbl e he; exact htbl e he
  | cons pr rest ih =>
    intro tbl hpairs htbl e he
    simp only [List.foldl_cons] at he
    refine ih _ (fun pr2 hpr2 => hpairs pr2 (List.mem_cons_of_mem _ hpr2)) ?_ e he
    exact shuffleAdd_sum_pos tbl pr.1 pr.2 htbl (hpairs pr (List.mem_cons_self ..))

lemma merged_table_pos (text : List Char) (workers : Int) :
    ∀ kv ∈ merged_table text workers, 1 ≤ kv.2 := by
  intro kv hkv
  unfold merged_table reduce_function at hkv
  simp only [List.mem_map] at hkv
  obtain ⟨e, he, rfl⟩ := hkv
  have hall : ∀ pr ∈ ((chunk_text text workers).map map_function).flatten,
      0 < pr.2 := by
    intro pr hpr
    simp only [List.mem_flatten, List.mem_map] at hpr
    obtain ⟨l, ⟨ch, _, rfl⟩, hpr2⟩ := hpr
    simp only [map_function, List.mem_map] at hpr2
    obtain ⟨w, _, rfl⟩ := hpr2
    exact Nat.one_pos
  exact shuffle_sum_pos _ [] hall (by simp) e he

/-- Claim C9: every entry of the Counter returned by `map_reduce_parallel` has a
key made only of `WORD_RE` characters fixed by lower-casing, of length at
least `min_len`, absent from the stopword set when `use_stopwords` is true,
and a count of at least 1. -/
theorem c9_entry_invariant (text : List Char) (workers : Int) (min_len : Nat)
    (u : Bool) :
    ∀ e ∈ map_reduce_parallel text workers min_len u,
      (∀ c ∈ e.1, isWordChar c = true ∧ pyLower c = c)
      ∧ min_len ≤ e.1.length
      ∧ (u = true → DEFAULT_STOPWORDS.contains e.1 = false)
      ∧ 1 ≤ e.2 := by
  intro e he
  have hgood : goodEntry min_len (stopwordsFor u) e := by
    unfold map_reduce_parallel normalizeTable at he
    exact normalize_fold_good min_len (stopwordsFor u) (merged_table text workers)
      [] (by simp) (merged_table_pos text workers) e he
  refine ⟨hgood.1, hgood.2.1, fun hu => ?_, hgood.2.2.2⟩
  have := hgood.2.2.1
  rwa [hu] at this

theorem c9_entry_invariant_witness :
    (("cat".toList, 1) ∈ map_reduce_parallel ("cat".toList) 1 1 true)
    ∧ 1 ≤ (("cat".toList, 1) : Token × Nat).2 :=
  ⟨by decide,
   (c9_entry_invariant ("cat".toList) 1 1 true ("cat".toList, 1) (by decide)).2.2.2⟩

/-! ### Whitespace-aligned chunk boundaries (worker-count independence) -/

lemma runsAux_append (p : Char → Bool) (c : Char) (hc : p c = false) :
    ∀ (a b acc : List Char),
      runsAux p (a ++ c :: b) acc = runsAux p a acc ++ runsAux p (c :: b) [] := by
  intro a
  induction a with
  | nil =>
    intro b acc
    cases acc with
    | nil => simp [runsAux, hc]
    | cons a0 as => simp [runsAux, hc]
  | cons x a2 ih =>
    intro b acc
    simp only [List.cons_append, runsAux]
    by_cases hx : p x
    · simp [hx, ih, runsAux, hc]
    · cases acc with
      | nil => simp [hx, ih, runsAux, hc]
      | cons a0 as => simp [hx, ih, runsAux, hc]

lemma pySplit_append (a b : List Char) (h : boundaryOk a b = true) :
    pySplit (a ++ b) = pySplit a ++ pySplit b := by
  rcases List.eq_nil_or_concat a with rfl | ⟨l, x, rfl⟩
  · simp [pySplit, runsAux]
  · simp only [List.concat_eq_append] at h ⊢
    cases b with
    | nil => simp [pySplit, runsAux]
    | cons y b2 =>
      have hb : (pyIsSpace x || pyIsSpace y) = true := by
        simpa [boundaryOk, List.getLast?_concat] using h
      rcases Bool.or_eq_true_iff.mp hb with hx | hy
      · have hx2 : (fun c => !pyIsSpace c) x = false := by simp [hx]
        have hsame : (l ++ [x]) ++ y :: b2 = l ++ x :: (y :: b2) := by simp
        show runsAux (fun c => !pyIsSpace c) ((l ++ [x]) ++ y :: b2) [] = _
        rw [hsame, runsAux_append _ x hx2 l (y :: b2) []]
        have h2 : pySplit (l ++ [x]) = runsAux (fun c => !pyIsSpace c) l [] := by
          show runsAux (fun c => !pyIsSpace c) (l ++ x :: []) [] = _
          rw [runsAux_append _ x hx2 l [] []]
          simp [runsAux, hx]
        have h3 : runsAux (fun c => !pyIsSpace c) (x :: (y :: b2)) []
            = pySplit (y :: b2) := by
          simp [runsAux, hx, pySplit]
        rw [h2, h3]
      · have hy2 : (fun c => !pyIsSpace c) y = false := by simp [hy]
        show runsAux (fun c => !pyIsSpace c) ((l ++ [x]) ++ y :: b2) [] = _
        rw [runsAux_append _ y hy2 (l ++ [x]) b2 []]
        rfl

lemma pySplit_flatten_aligned :
    ∀ (parts : List (List Char)), (∀ p ∈ parts, p ≠ []) →
      alignedOk parts = true →
      pySplit parts.flatten = (parts.map pySplit).flatten := by
  intro parts
  induction parts with
  | nil => intro _ _; rfl
  | cons a rest ih =>
    cases rest with
    | nil => intro _ _; simp
    | cons b rest2 =>
      intro hne hal
      simp only [alignedOk, Bool.and_eq_true] at hal
      obtain ⟨hb, hal2⟩ := hal
      have hbne : b ≠ [] := hne b (by simp)
      obtain ⟨b0, bt, rfl⟩ : ∃ b0 bt, b = b0 :: bt := by
        cases b with
        | nil => exact absurd rfl hbne
        | cons b0 bt => exact ⟨b0, bt, rfl⟩
      have hbd : boundaryOk a ((b0 :: bt) :: rest2).flatten = true := by
        simp only [List.flatten_cons, List.cons_append]
        cases hga : a.getLast? with
        | none => simp [boundaryOk, hga]
        | some x =>
          simp only [boundaryOk, hga, List.head?_cons] at hb ⊢
          exact hb
      have hflat : (a :: (b0 :: bt) :: rest2).flatten
          = a ++ ((b0 :: bt) :: rest2).flatten := by
        simp
      rw [hflat, pySplit_append a _ hbd,
          ih (fun p hp => hne p (List.mem_cons_of_mem _ hp)) hal2]
      simp

lemma mapped_flatten_aligned (text : List Char) (k : Int)
    (hal : alignedOk (chunk_text text k) = true) :
    ((chunk_text text k).map map_function).flatten = map_function text := by
  by_cases hk : k ≤ 1
  · have hchunk : chunk_text text k = [text] := by
      unfold chunk_text
      rw [if_pos hk]
    rw [hchunk]
    simp
  · have hne := chunk_text_ne_nil text k hk
    have hsplit := pySplit_flatten_aligned (chunk_text text k) hne hal
    rw [chunk_text_flatten_aux text k] at hsplit
    show ((chunk_text text k).map
        (fun c => (pySplit c).map (fun word => (word, (1 : Nat))))).flatten = _
    have h1 : (chunk_text text k).map
          (fun c => (pySplit c).map (fun word => (word, (1 : Nat))))
        = ((chunk_text text k).map pySplit).map
            (List.map (fun word => (word, (1 : Nat)))) := by
      rw [List.map_map]
      rfl
    rw [h1, ← List.map_flatten, ← hsplit]
    rfl

/-- Claim C3: when every internal chunk boundary falls on whitespace for both
worker counts, the pipeline result is identical (as an ordered table, hence
in particular as contents) under both worker counts. -/
theorem c3_worker_count_independence (text : List Char) (w1 w2 : Int)
    (min_len : Nat) (u : Bool) (hw1 : 1 ≤ w1) (hw2 : 1 ≤ w2)
    (ha1 : alignedOk (chunk_text text w1) = true)
    (ha2 : alignedOk (chunk_text text w2) = true) :
    map_reduce_parallel text w1 min_len u
      = map_reduce_parallel text w2 min_len u := by
  unfold map_reduce_parallel merged_table
  rw [mapped_flatten_aligned text w1 ha1, mapped_flatten_aligned text w2 ha2]

theorem c3_worker_count_independence_witness :
    ((1 : Int) ≤ 1) ∧ ((1 : Int) ≤ 2)
    ∧ alignedOk (chunk_text ("aa bb ".toList) 1) = true
    ∧ alignedOk (chunk_text ("aa bb ".toList) 2) = true
    ∧ map_reduce_parallel ("aa bb ".toList) 1 1 true
        = map_reduce_parallel ("aa bb ".toList) 2 1 true :=
  ⟨by decide, by decide, by decide, by decide,
   c3_worker_count_independence ("aa bb ".toList) 1 2 1 true
     (by decide) (by decide) (by decide) (by decide)⟩

/-! ### Completion-schedule independence (determinism) -/

lemma lookup_map_self (g : Nat → List (Token × Nat)) :
    ∀ (ord : List Nat) (i : Nat), i ∈ ord →
      List.lookup i (ord.map (fun j => (j, g j))) = some (g i) := by
  intro ord
  induction ord with
  | nil => simp
  | cons j rest ih =>
    intro i hi
    by_cases h : i = j
    · subst h
      simp [List.lookup]
    · have hne : (i == j) = false := by simp [h]
      have hi2 : i ∈ rest := by
        rcases List.mem_cons.mp hi with rfl | h2
        · exact absurd rfl h
        · exact h2
      simp [List.lookup, hne, ih i hi2]

lemma map_getD_range (f : List Char → List (Token × Nat)) :
    ∀ (l : List (List Char)),
      (List.range l.length).map (fun i => f (l.getD i [])) = l.map f := by
  intro l
  induction l with
  | nil => simp
  | cons x xs ih =>
    simp only [List.length_cons, List.range_succ_eq_map, List.map_cons,
      List.map_map]
    have hfun : ∀ i : Nat,
        ((fun i => f ((x :: xs).getD i [])) ∘ Nat.succ) i = f (xs.getD i []) := by
      intro i
      simp
    rw [List.map_congr_left (fun i _ => hfun i), ih]
    rfl

lemma pool_map_collect_eq (parts : List (List Char)) (ord : List Nat)
    (h : ∀ i, i < parts.length → i ∈ ord) :
    pool_map_collect parts ord = parts.map map_function := by
  unfold pool_map_collect
  have hcong : ∀ i ∈ List.range parts.length,
      (List.lookup i (ord.map (fun j => (j, map_function (parts.getD j []))))).getD []
        = map_function (parts.getD i []) := by
    intro i hi
    rw [lookup_map_self (fun j => map_function (parts.getD j [])) ord i
        (h i (List.mem_range.mp hi))]
    rfl
  rw [List.map_congr_left hcong]
  exact map_getD_range map_function parts

/-- Claim C8: the pipeline is a deterministic pure function of its inputs: for any
two mapper completion schedules (permutations of the chunk indices), the run
yields the same NormalizedTable — equal to the canonical
`map_reduce_parallel` result — and the same TopNResult. -/
theorem c8_deterministic (text : List Char) (w : Int) (min_len : Nat)
    (u : Bool) (n : Nat) (ord1 ord2 : List Nat)
    (h1 : ord1.Perm (List.range (chunk_text text w).length))
    (h2 : ord2.Perm (List.range (chunk_text text w).length)) :
    map_reduce_sched text w min_len u ord1 = map_reduce_parallel text w min_len u
    ∧ map_reduce_sched text w min_len u ord2 = map_reduce_parallel text w min_len u
    ∧ map_reduce_sched text w min_len u ord1 = map_reduce_sched text w min_len u ord2
    ∧ most_common (map_reduce_sched text w min_len u ord1) n
        = most_common (map_reduce_sched text w min_len u ord2) n := by
  have e1 : pool_map_collect (chunk_text text w) ord1
      = (chunk_text text w).map map_function :=
    pool_map_collect_eq _ _ (fun i hi => h1.mem_iff.mpr (List.mem_range.mpr hi))
  have e2 : pool_map_collect (chunk_text text w) ord2
      = (chunk_text text w).map map_function :=
    pool_map_collect_eq _ _ (fun i hi => h2.mem_iff.mpr (List.mem_range.mpr hi))
  have hs1 : map_reduce_sched text w min_len u ord1
      = map_reduce_parallel text w min_len u := by
    unfold map_reduce_sched map_reduce_parallel merged_table
    rw [e1]
  have hs2 : map_reduce_sched text w min_len u ord2
      = map_reduce_parallel text w min_len u := by
    unfold map_reduce_sched map_reduce_parallel merged_table
    rw [e2]
  exact ⟨hs1, hs2, by rw [hs1, hs2], by rw [hs1, hs2]⟩

theorem c8_deterministic_witness :
    ([1, 0] : List Nat).Perm (List.range (chunk_text ("aa bb cc".toList) 2).length)
    ∧ ([0, 1] : List Nat).Perm (List.range (chunk_text ("aa bb cc".toList) 2).length)
    ∧ map_reduce_sched ("aa bb cc".toList) 2 1 true [1, 0]
        = map_reduce_sched ("aa bb cc".toList) 2 1 true [0, 1] :=
  ⟨by decide, by decide,
   (c8_deterministic ("aa bb cc".toList) 2 1 true 2 [1, 0] [0, 1]
     (by decide) (by decide)).2.2.1⟩

end MapReduce
